import Mathlib

/-!
Verification development for the cc-tail session tailer (src/index.js).

Strings are modelled as `List Char`.  Each definition below is a shallow
embedding of the corresponding JavaScript function; JS `undefined` is
modelled with `Option`, JS string truthiness (`''` is falsy) with
explicit emptiness tests, and the two stateful loops (the render loop of
`renderDiff` and the watcher) with fuel-indexed recursion respectively
explicit state passing.
-/

/-- Model of JS `String.prototype.split('\n')`: splits a character list at
every newline, keeping empty pieces (`"a\n".split('\n') = ["a", ""]`). -/
def splitNl : List Char → List (List Char)
  | [] => [[]]
  | c :: cs =>
    if c = '\n' then [] :: splitNl cs
    else
      match splitNl cs with
      | [] => [[c]]
      | l :: ls => (c :: l) :: ls

/-- Model of `.split('\n').filter(Boolean)` as used by the replay loop and
the change handler: the nonempty lines of a chunk, in order.  These are
exactly the strings handed to `JSON.parse`. -/
def nonEmptyLines (chunk : List Char) : List (List Char) :=
  (splitNl chunk).filter (fun l => !l.isEmpty)

/-- Concatenation of newline-terminated lines; used to state which byte
strings are "split at line boundaries". -/
def unlines (ls : List (List Char)) : List Char :=
  (ls.map (fun l => l ++ ['\n'])).flatten

/-- The last piece of `splitNl` of a chunk: when the chunk does not end in
a newline this is the trailing partial line. -/
def trailingPiece (chunk : List Char) : List Char :=
  (splitNl chunk).getLastD []

/-- Sidecar object `toolUseResult` carried by a session record
(`stdout` / `stderr` / `is_error`, each possibly absent). -/
structure ToolUseResult where
  stdout : Option (List Char)
  stderr : Option (List Char)
  isError : Bool
deriving DecidableEq

/-- The duck-typed `input` mapping of a `tool_use` item: the fields the
tool-call formatters read, each possibly absent. -/
structure ToolInput where
  filePath : Option (List Char)
  oldString : Option (List Char)
  newString : Option (List Char)
  replaceAll : Bool
  contentField : Option (List Char)
  command : Option (List Char)
  description : Option (List Char)
  pattern : Option (List Char)
  pathField : Option (List Char)
  subagentType : Option (List Char)
deriving DecidableEq

/-- The all-absent tool input, modelling the JS default `input || {}`. -/
def emptyToolInput : ToolInput :=
  ⟨none, none, none, false, none, none, none, none, none, none⟩

/-- Content items of a record's `message.content` array, tagged by their
`type` field. -/
inductive Item where
  | thinking (text : List Char)
  | toolUse (name : List Char) (input : Option ToolInput)
  | toolResult (content : Option (List Char))
  | textItem (text : List Char)
  | otherItem
deriving DecidableEq

/-- A record's `message.content`: either a plain string or an array of
content items. -/
inductive MsgContent where
  | str (s : List Char)
  | items (l : List Item)
deriving DecidableEq

/-- One parsed JSONL session record, restricted to the fields the
processing pipeline reads. `msgContent = none` models a record whose
`message` or `message.content` is absent. -/
structure Entry where
  type : Option (List Char)
  msgContent : Option MsgContent
  toolUseResult : Option ToolUseResult
  timestamp : Option (List Char)
deriving DecidableEq

/-- The display-option toggles resolved once at startup. -/
structure Opts where
  showThinking : Bool
  showTools : Bool
  showToolOutput : Bool
  showOutput : Bool
  showUser : Bool
deriving DecidableEq

/-- A display event: one call to a print routine made by `processEntry`,
together with the payload handed to it. -/
inductive Event where
  | userMsg (content : MsgContent) (ts : Option (List Char))
  | thinkingEv (text : List Char) (ts : Option (List Char))
  | toolCallEv (name : List Char) (input : ToolInput) (ts : Option (List Char))
  | toolResultEv (content : Option (List Char)) (sidecar : Option ToolUseResult)
      (ts : Option (List Char))
  | textResponseEv (text : List Char) (ts : Option (List Char))
deriving DecidableEq

/-- JS truthiness of an optional string: `undefined` and `''` are falsy. -/
def strTruthy : Option (List Char) → Bool
  | none => false
  | some s => !s.isEmpty

/-- JS `a || b` on optional strings. -/
def jsOrStr (a b : Option (List Char)) : Option (List Char) :=
  if strTruthy a then a else b

/-- Truthiness of `entry.message?.content`: absent and `''` are falsy,
arrays (even empty ones) are truthy. -/
def contentTruthy : Option MsgContent → Bool
  | none => false
  | some (.str s) => !s.isEmpty
  | some (.items _) => true

/-- The constant `'user'`. -/
def userTag : List Char := ['u', 's', 'e', 'r']

/-- Events produced for one content item by the per-item loop of
`processEntry` (the four independently gated `if` statements; the tags
are mutually exclusive, so a match models them faithfully). -/
def itemEvents (o : Opts) (tur : Option ToolUseResult) (ts : Option (List Char)) :
    Item → List Event
  | .thinking t => if o.showThinking && !t.isEmpty then [.thinkingEv t ts] else []
  | .toolUse n inp => if o.showTools then [.toolCallEv n (inp.getD emptyToolInput) ts] else []
  | .toolResult c => if o.showToolOutput then [.toolResultEv c tur ts] else []
  | .textItem t => if o.showOutput && !t.isEmpty then [.textResponseEv t ts] else []
  | .otherItem => []

/-- Model of `processEntry(entry, opts)`: the sequence of print calls it
makes for one record. -/
def processEntry (o : Opts) (e : Entry) : List Event :=
  if e.type = some userTag ∧ contentTruthy e.msgContent then
    (if o.showUser then
       match e.msgContent with
       | some c => [.userMsg c e.timestamp]
       | none => []
     else []) ++
    (if o.showToolOutput then
       match e.msgContent with
       | some (.items l) =>
         l.filterMap (fun it =>
           match it with
           | .toolResult rc => some (.toolResultEv rc e.toolUseResult e.timestamp)
           | _ => none)
       | _ => []
     else [])
  else
    match e.msgContent with
    | some (.items l) => l.flatMap (itemEvents o e.toolUseResult e.timestamp)
    | _ => []

/-- One line through `try { processEntry(JSON.parse(line), ...) } catch {}`:
a parse failure is swallowed and produces no events.  `parse` abstracts
`JSON.parse` (`none` = the parse threw). -/
def entryEvents (parse : List Char → Option Entry) (o : Opts) (line : List Char) :
    List Event :=
  match parse line with
  | some e => processEntry o e
  | none => []

/-- The line loop shared by the replay phase and the change handler,
applied to an already split list of lines. -/
def processLines (parse : List Char → Option Entry) (o : Opts)
    (lines : List (List Char)) : List Event :=
  lines.flatMap (entryEvents parse o)

/-- Processing of one decoded chunk:
`for (const line of chunk.split('\n').filter(Boolean)) try ... catch`. -/
def processChunk (parse : List Char → Option Entry) (o : Opts)
    (chunk : List Char) : List Event :=
  processLines parse o (nonEmptyLines chunk)

/-- Model of the `watcher.on('change')` handler: given the current file
content and the cursor `lastSize`, returns the new cursor and the events
emitted.  When the file grew, the handler reads exactly
`newSize - lastSize` bytes starting at `lastSize`, processes them, and
sets `lastSize = newSize`; otherwise it does nothing. -/
def onChange (parse : List Char → Option Entry) (o : Opts)
    (file : List Char) (lastSize : Nat) : Nat × List Event :=
  let newSize := file.length
  if lastSize < newSize then
    let buffer := (file.drop lastSize).take (newSize - lastSize)
    (newSize, processChunk parse o buffer)
  else (lastSize, [])

/-- A whole follow phase: fold `onChange` over successive snapshots of the
growing file, accumulating events. -/
def runWatch (parse : List Char → Option Entry) (o : Opts)
    (files : List (List Char)) (st : Nat) : Nat × List Event :=
  files.foldl (fun acc f =>
    let r := onChange parse o f acc.1
    (r.1, acc.2 ++ r.2)) (st, [])

/-- Model of `printToolResult`'s output: one constructor per kind of line
the function prints. -/
inductive ToolOut where
  | arrow
  | body (line : List Char)
  | more (n : Nat)
  | stderrLine (s : List Char)
deriving DecidableEq

/-- Model of `printToolResult(content, toolUseResult)`:
`output = toolUseResult?.stdout || content`, early return when neither
`output` nor `stderr` is truthy, body truncated to 15 lines with a
`(N more lines)` summary, stderr excerpt `stderr.slice(0, 200)`. -/
def printToolResult (content : Option (List Char)) (tur : Option ToolUseResult) :
    List ToolOut :=
  let output := jsOrStr (tur.bind (fun r => r.stdout)) content
  let stderr := tur.bind (fun r => r.stderr)
  if !strTruthy output && !strTruthy stderr then []
  else
    ToolOut.arrow ::
      ((if strTruthy output then
          let lines := splitNl (output.getD [])
          (lines.take 15).map ToolOut.body ++
            (if 15 < lines.length then [ToolOut.more (lines.length - 15)] else [])
        else []) ++
       (if strTruthy stderr then [ToolOut.stderrLine ((stderr.getD []).take 200)] else []))

/-- Model of the JS regex class `\s` for the characters relevant here. -/
def isWsChar (c : Char) : Bool :=
  c == ' ' || c == '\t' || c == '\n' || c == '\r' || c == '\x0b' || c == '\x0c'

/-- Fuel-indexed splitting of a line into maximal runs of whitespace /
non-whitespace characters, modelling `line.split(/(\s+)/)` (the empty
boundary pieces that JS split produces are no-ops in the wrap loop and
are omitted). -/
def tokenizeF : Nat → List Char → List (List Char)
  | 0, _ => []
  | _ + 1, [] => []
  | fuel + 1, c :: cs =>
    (c :: cs.takeWhile (fun x => isWsChar x == isWsChar c)) ::
      tokenizeF fuel (cs.dropWhile (fun x => isWsChar x == isWsChar c))

/-- Splitting of a line into maximal whitespace / non-whitespace runs. -/
def tokenize (l : List Char) : List (List Char) :=
  tokenizeF l.length l

/-- Model of `String.prototype.trimStart` restricted to `\s`. -/
def trimStartWs (l : List Char) : List Char :=
  l.dropWhile isWsChar

/-- State of the greedy packing loop of `wrapText`. -/
structure WrapSt where
  wrapped : List (List Char)
  current : List Char

/-- One iteration of `for (const word of words)` in `wrapText`. -/
def wrapStep (maxW : Nat) (st : WrapSt) (word : List Char) : WrapSt :=
  if st.current.length + word.length ≤ maxW then ⟨st.wrapped, st.current ++ word⟩
  else ⟨st.wrapped ++ (if st.current.isEmpty then [] else [st.current]), trimStartWs word⟩

/-- The chunks an over-long line is broken into by `wrapText`. -/
def wrapLine (maxW : Nat) (line : List Char) : List (List Char) :=
  let st := (tokenize line).foldl (wrapStep maxW) ⟨[], []⟩
  st.wrapped ++ (if st.current.isEmpty then [] else [st.current])

/-- Model of `Array.prototype.join(sep)`. -/
def joinSep (sep : List Char) : List (List Char) → List Char
  | [] => []
  | [x] => x
  | x :: xs => x ++ sep ++ joinSep sep xs

/-- Model of `wrapText(text, indent)` with the terminal width made an
explicit argument.  `width - indent` is truncated Nat subtraction; in JS
a negative difference also lands in the `maxWidth < 20` passthrough
branch, so the branch taken coincides. -/
def wrapText (width indent : Nat) (text : List Char) : List Char :=
  let maxW := width - indent
  if maxW < 20 then text
  else
    let indentStr := List.replicate indent ' '
    joinSep ['\n'] ((splitNl text).map (fun line =>
      if line.length ≤ maxW then line
      else joinSep ('\n' :: indentStr) (wrapLine maxW line)))

/-- Decimal digit characters of a natural number, fuel-indexed. -/
def natDigitsAux : Nat → Nat → List Char
  | 0, _ => []
  | fuel + 1, n =>
    if n < 10 then [Nat.digitChar n]
    else natDigitsAux fuel (n / 10) ++ [Nat.digitChar (n % 10)]

/-- Model of JS `String(n)` for a natural number. -/
def natDigits (n : Nat) : List Char :=
  natDigitsAux (n + 1) n

/-- Model of `String.prototype.padStart(w, ' ')`. -/
def padStart (w : Nat) (s : List Char) : List Char :=
  List.replicate (w - s.length) ' ' ++ s

/-- The pieces of `splitNl` turned back into full lines, each keeping its
terminating newline (the final piece has none; an empty final piece is
dropped).  This is the line tokenization of the `diff` dependency. -/
def withTrailingNl : List (List Char) → List (List Char)
  | [] => []
  | [l] => if l.isEmpty then [] else [l]
  | l :: rest => (l ++ ['\n']) :: withTrailingNl rest

/-- A text as a list of newline-retaining line tokens. -/
def lineTokens (s : List Char) : List (List Char) :=
  withTrailingNl (splitNl s)

/-- Fuel-indexed length of a longest common subsequence of two token
lists. -/
def lcsLenF : Nat → List (List Char) → List (List Char) → Nat
  | 0, _, _ => 0
  | _ + 1, [], _ => 0
  | _ + 1, _, [] => 0
  | fuel + 1, x :: xs, y :: ys =>
    if x = y then lcsLenF fuel xs ys + 1
    else max (lcsLenF fuel xs (y :: ys)) (lcsLenF fuel (x :: xs) ys)

/-- Length of a longest common subsequence of two token lists. -/
def lcsLen (xs ys : List (List Char)) : Nat :=
  lcsLenF (xs.length + ys.length + 1) xs ys

/-- One elementary diff operation on a line token. -/
inductive DiffOp where
  | keep (l : List Char)
  | del (l : List Char)
  | ins (l : List Char)
deriving DecidableEq

/-- Fuel-indexed LCS line diff; removals are emitted before insertions,
and on a tie the removal branch is preferred, as in the `diff`
dependency. -/
def lineDiffF : Nat → List (List Char) → List (List Char) → List DiffOp
  | 0, _, _ => []
  | _ + 1, [], [] => []
  | fuel + 1, [], y :: ys => .ins y :: lineDiffF fuel [] ys
  | fuel + 1, x :: xs, [] => .del x :: lineDiffF fuel xs []
  | fuel + 1, x :: xs, y :: ys =>
    if x = y then .keep x :: lineDiffF fuel xs ys
    else if lcsLen (x :: xs) ys ≤ lcsLen xs (y :: ys) then
      .del x :: lineDiffF fuel xs (y :: ys)
    else .ins y :: lineDiffF fuel (x :: xs) ys

/-- LCS line diff of two token lists. -/
def lineDiffOps (xs ys : List (List Char)) : List DiffOp :=
  lineDiffF (xs.length + ys.length + 1) xs ys

/-- A change object of the `diff` dependency: a maximal run of added,
removed or unchanged lines, with `value` the concatenated line text. -/
inductive ChKind where
  | added
  | removed
  | common
deriving DecidableEq

/-- A run of the line diff. -/
structure Change where
  kind : ChKind
  value : List Char
deriving DecidableEq

/-- The single-operation change. -/
def opChange : DiffOp → Change
  | .keep l => ⟨.common, l⟩
  | .del l => ⟨.removed, l⟩
  | .ins l => ⟨.added, l⟩

/-- Merge consecutive equal-kind operations into maximal runs. -/
def groupOps : List DiffOp → List Change
  | [] => []
  | op :: rest =>
    match groupOps rest with
    | [] => [opChange op]
    | ch :: chs =>
      if (opChange op).kind = ch.kind then ⟨ch.kind, (opChange op).value ++ ch.value⟩ :: chs
      else opChange op :: ch :: chs

/-- Modelled from the spec: the external `diff` dependency's `diffLines`,
which is not part of this repository.  Per spec §4.5 any line-level diff
producing runs of added, removed and unchanged lines is acceptable
("greedy longest-common-subsequence-style line diffing is sufficient;
exact minimality is not a correctness requirement"); this is an LCS line
diff over newline-retaining line tokens with runs merged. -/
def diffLinesModel (oldS newS : List Char) : List Change :=
  groupOps (lineDiffOps (lineTokens oldS) (lineTokens newS))

/-- Kind tag of an entry of `allLines` in `renderDiff`. -/
inductive LKind where
  | add
  | remove
  | ctx
deriving DecidableEq

/-- One entry of the `allLines` array of `renderDiff`: a display kind, the
line text, and the line number assigned to it. -/
structure DLine where
  kind : LKind
  line : List Char
  num : Nat
deriving DecidableEq

/-- Model of `change.value.split('\n')` followed by popping one trailing
empty piece. -/
def chLines (v : List Char) : List (List Char) :=
  let ls := splitNl v
  if ls.getLast? = some [] then ls.dropLast else ls

/-- Lines of one run, numbered consecutively from `start`. -/
def numberRun (k : LKind) : Nat → List (List Char) → List DLine
  | _, [] => []
  | start, l :: ls => ⟨k, l, start⟩ :: numberRun k (start + 1) ls

/-- The `allLines` construction loop of `renderDiff`: `oldLineNum` advances
on removed and context lines, `newLineNum` on added and context lines;
added and context lines record the new number, removed lines the old
one. -/
def buildGo : List Change → Nat → Nat → List DLine
  | [], _, _ => []
  | ch :: rest, o, n =>
    let ls := chLines ch.value
    match ch.kind with
    | .added => numberRun .add n ls ++ buildGo rest o (n + ls.length)
    | .removed => numberRun .remove o ls ++ buildGo rest (o + ls.length) n
    | .common => numberRun .ctx n ls ++ buildGo rest (o + ls.length) (n + ls.length)

/-- The `allLines` array of `renderDiff` (both counters start at 1). -/
def buildAllLines (chs : List Change) : List DLine :=
  buildGo chs 1 1

/-- Model of `Math.max(...allLines.map(l => l.num))` (0 for the empty
array, where the JS value is `-Infinity`; in that case nothing is
rendered and the padding width is never used). -/
def maxNum (all : List DLine) : Nat :=
  all.foldr (fun d m => max d.num m) 0

/-- One line of `renderDiff`'s output: the ellipsis marker or a context /
added / removed line carrying its padded number string and text. -/
inductive RLine where
  | ellipsis
  | ctxL (numStr line : List Char)
  | addL (numStr line : List Char)
  | remL (numStr line : List Char)
deriving DecidableEq

/-- The padded line-number field of a rendered line (`none` for the
ellipsis marker). -/
def numStrOf : RLine → Option (List Char)
  | .ellipsis => none
  | .ctxL p _ => some p
  | .addL p _ => some p
  | .remL p _ => some p

/-- Whether an `allLines` entry is an added or removed line. -/
def isChange (d : DLine) : Bool :=
  match d.kind with
  | .add => true
  | .remove => true
  | .ctx => false

/-- The rendered form of one `allLines` entry. -/
def emitLine (pad : Nat → List Char) (d : DLine) : RLine :=
  match d.kind with
  | .add => .addL (pad d.num) d.line
  | .remove => .remL (pad d.num) d.line
  | .ctx => .ctxL (pad d.num) d.line

/-- Condition of the inner `while` of `renderDiff`: the current entry is a
change, or a context line directly followed by a change. -/
def innerCond (all : List DLine) (i : Nat) : Bool :=
  match all[i]? with
  | none => false
  | some d =>
    isChange d ||
      ((match d.kind with | .ctx => true | _ => false) &&
        (match all[i + 1]? with
         | some d2 => isChange d2
         | none => false))

/-- The inner `while` of `renderDiff`, fuel-indexed: emits entries while
`innerCond` holds and returns the rendered lines together with the index
it stopped at. -/
def innerLoop (all : List DLine) (pad : Nat → List Char) : Nat → Nat → List RLine × Nat
  | i, 0 => ([], i)
  | i, fuel + 1 =>
    if innerCond all i then
      match all[i]? with
      | some d =>
        let r := innerLoop all pad (i + 1) fuel
        (emitLine pad d :: r.1, r.2)
      | none => ([], i)
    else ([], i)

/-- The context-printing `for` loops of `renderDiff`: the context-kind
entries with indices in `[lo, hi)`. -/
def ctxBetween (all : List DLine) (pad : Nat → List Char) (lo hi : Nat) : List RLine :=
  (List.range' lo (hi - lo)).filterMap (fun j =>
    match all[j]? with
    | some d =>
      match d.kind with
      | .ctx => some (.ctxL (pad d.num) d.line)
      | _ => none
    | none => none)

/-- The outer `while` of `renderDiff`, fuel-indexed.  `outEmpty` tracks
`output.length === 0`; `contextStart = i - cl` uses Nat subtraction,
matching `Math.max(0, i - contextLines)`. -/
def outerLoop (cl : Nat) (all : List DLine) (pad : Nat → List Char) :
    Nat → Bool → Nat → List RLine
  | _, _, 0 => []
  | i, outEmpty, fuel + 1 =>
    match all[i]? with
    | none => []
    | some d =>
      if isChange d then
        let contextStart := i - cl
        let lead := if decide (0 < contextStart) && outEmpty then [RLine.ellipsis] else []
        let inner := innerLoop all pad i all.length
        let contextEnd := min all.length (inner.2 + cl)
        let trail := if contextEnd < all.length then [RLine.ellipsis] else []
        lead ++ ctxBetween all pad contextStart i ++ inner.1 ++
          ctxBetween all pad inner.2 contextEnd ++ trail ++
          outerLoop cl all pad contextEnd false fuel
      else outerLoop cl all pad (i + 1) outEmpty fuel

/-- Model of `renderDiff(oldStr, newStr, contextLines)`: builds the
numbered line list, computes the padding width from the largest line
number, and runs the block-emitting loop.  The result is the list of
printed lines; `[]` corresponds to the empty string result. -/
def renderDiff (oldStr newStr : Option (List Char)) (cl : Nat) : List RLine :=
  let all := buildAllLines (diffLinesModel (oldStr.getD []) (newStr.getD []))
  let pad := fun n => padStart (natDigits (maxNum all)).length (natDigits n)
  outerLoop cl all pad 0 true (all.length + 1)

/-- The diff part of `printToolCall`'s `Edit` case:
`const diff = renderDiff(input.old_string, input.new_string); if (diff)
console.log(diff);` — no block is printed when the diff is empty. -/
def editDiffBlock (oldStr newStr : Option (List Char)) : Option (List RLine) :=
  let d := renderDiff oldStr newStr 3
  if d.isEmpty then none else some d

/-- Snapshots of the watched file growing by one chunk per change
notification, starting from the prefix `pre`. -/
def snapshotsFrom (pre : List Char) : List (List (List Char)) → List (List Char)
  | [] => []
  | ls :: lss => (pre ++ unlines ls) :: snapshotsFrom (pre ++ unlines ls) lss

/-- Snapshots of the watched file when its line list arrives in the given
groups. -/
def snapshots (lss : List (List (List Char))) : List (List Char) :=
  snapshotsFrom [] lss

/-- Which `allLines` kinds an entry's line number counts through: removed
lines are numbered through the old line sequence (removed and context
lines), added and context lines through the new one (added and context
lines). -/
def sideOf (dk ek : LKind) : Bool :=
  match dk with
  | .remove => ek == LKind.remove || ek == LKind.ctx
  | _ => ek == LKind.add || ek == LKind.ctx

theorem splitNl_nil : splitNl [] = [[]] := rfl

theorem splitNl_cons_nl (cs : List Char) : splitNl ('\n' :: cs) = [] :: splitNl cs := by
  simp [splitNl]

theorem splitNl_cons_ne (c : Char) (cs : List Char) (hc : c ≠ '\n')
    (l : List Char) (ls : List (List Char)) (h : splitNl cs = l :: ls) :
    splitNl (c :: cs) = (c :: l) :: ls := by
  simp only [splitNl]
  rw [if_neg hc, h]

theorem splitNl_ne_nil (s : List Char) : splitNl s ≠ [] := by
  induction s with
  | nil => simp [splitNl_nil]
  | cons c cs ih =>
    by_cases hc : c = '\n'
    · subst hc
      simp [splitNl_cons_nl]
    · rcases h : splitNl cs with _ | ⟨l, ls⟩
      · exact absurd h ih
      · rw [splitNl_cons_ne c cs hc l ls h]
        simp

theorem splitNl_append_nl (a b : List Char) :
    splitNl (a ++ '\n' :: b) = splitNl a ++ splitNl b := by
  induction a with
  | nil =>
    rw [List.nil_append, splitNl_cons_nl, splitNl_nil]
    rfl
  | cons c a ih =>
    by_cases hc : c = '\n'
    · subst hc
      rw [List.cons_append, splitNl_cons_nl, ih, splitNl_cons_nl]
      rfl
    · rcases h : splitNl a with _ | ⟨l, ls⟩
      · exact absurd h (splitNl_ne_nil a)
      · rw [List.cons_append,
          splitNl_cons_ne c (a ++ '\n' :: b) hc l (ls ++ splitNl b) (by rw [ih, h]; rfl),
          splitNl_cons_ne c a hc l ls h]
        rfl

theorem splitNl_prepend (a b : List Char) (ha : ∀ c ∈ a, c ≠ '\n')
    (l : List Char) (ls : List (List Char)) (hb : splitNl b = l :: ls) :
    splitNl (a ++ b) = (a ++ l) :: ls := by
  induction a with
  | nil => simpa using hb
  | cons c a ih =>
    have hc : c ≠ '\n' := ha c (List.mem_cons_self c a)
    have ih' := ih (fun x hx => ha x (List.mem_cons_of_mem c hx))
    rw [List.cons_append, splitNl_cons_ne c (a ++ b) hc (a ++ l) ls ih']
    rfl

theorem splitNl_single (x : List Char) (hx : ∀ c ∈ x, c ≠ '\n') :
    splitNl x = [x] := by
  have h := splitNl_prepend x [] hx [] [] splitNl_nil
  simpa using h

theorem splitNl_no_nl (s piece : List Char) (h : piece ∈ splitNl s) : '\n' ∉ piece := by
  induction s generalizing piece with
  | nil =>
    rw [splitNl_nil] at h
    simp at h
    simp [h]
  | cons c cs ih =>
    by_cases hc : c = '\n'
    · subst hc
      rw [splitNl_cons_nl] at h
      rcases List.mem_cons.mp h with h0 | h0
      · simp [h0]
      · exact ih piece h0
    · rcases he : splitNl cs with _ | ⟨l, ls⟩
      · exact absurd he (splitNl_ne_nil cs)
      · rw [splitNl_cons_ne c cs hc l ls he] at h
        rcases List.mem_cons.mp h with h0 | h0
        · subst h0
          intro hmem
          rcases List.mem_cons.mp hmem with h1 | h1
          · exact hc h1.symm
          · exact ih l (by rw [he]; exact List.mem_cons_self l ls) h1
        · exact ih piece (by rw [he]; exact List.mem_cons_of_mem l h0)

theorem getLastD_mem {α : Type} (l : List α) (d : α) (h : l ≠ []) :
    l.getLastD d ∈ l := by
  induction l generalizing d with
  | nil => exact absurd rfl h
  | cons a l ih =>
    rw [List.getLastD_cons]
    rcases eq_or_ne l [] with hl | hl
    · subst hl
      simp [List.getLastD]
    · exact List.mem_cons_of_mem a (ih a hl)

/-- Step monotonicity of the tail cursor. -/
theorem onChange_fst_ge (parse : List Char → Option Entry) (o : Opts)
    (file : List Char) (st : Nat) : st ≤ (onChange parse o file st).1 := by
  unfold onChange
  dsimp only
  split
  · next h => omega
  · exact le_rfl

theorem runWatch_fst_ge_aux (parse : List Char → Option Entry) (o : Opts)
    (files : List (List Char)) :
    ∀ acc : Nat × List Event,
      acc.1 ≤ (files.foldl (fun acc f =>
        let r := onChange parse o f acc.1
        (r.1, acc.2 ++ r.2)) acc).1 := by
  induction files with
  | nil => intro acc; simp
  | cons f fs ih =>
    intro acc
    simp only [List.foldl_cons]
    exact le_trans (onChange_fst_ge parse o f acc.1)
      (ih ((onChange parse o f acc.1).1, acc.2 ++ (onChange parse o f acc.1).2))

/-- C3: the tail cursor is monotonically non-decreasing (per notification
and across a whole follow phase), equals the file's length immediately
after each successful consume cycle, and a notification reporting no
growth (or a shrink) is a no-op: it returns normally with the cursor
unchanged and no events. -/
theorem c3_cursor (parse : List Char → Option Entry) (o : Opts) :
    (∀ (file : List Char) (st : Nat), st ≤ (onChange parse o file st).1) ∧
    (∀ (file : List Char) (st : Nat), st < file.length →
      (onChange parse o file st).1 = file.length) ∧
    (∀ (file : List Char) (st : Nat), file.length ≤ st →
      onChange parse o file st = (st, [])) ∧
    (∀ (files : List (List Char)) (st : Nat), st ≤ (runWatch parse o files st).1) := by
  refine ⟨onChange_fst_ge parse o, ?_, ?_, ?_⟩
  · intro file st h
    unfold onChange
    dsimp only
    rw [if_pos h]
  · intro file st h
    unfold onChange
    dsimp only
    rw [if_neg (by omega)]
  · intro files st
    exact runWatch_fst_ge_aux parse o files (st, [])

theorem c3_cursor_witness :
    1 < (['a', '\n', 'b', '\n'] : List Char).length ∧
    (onChange (fun _ => none) ⟨true, true, true, true, true⟩ ['a', '\n', 'b', '\n'] 1).1 = 4 ∧
    (['a'] : List Char).length ≤ 3 ∧
    onChange (fun _ => none) ⟨true, true, true, true, true⟩ ['a'] 3 = (3, []) :=
  ⟨by decide,
   (c3_cursor (fun _ => none) ⟨true, true, true, true, true⟩).2.1 ['a', '\n', 'b', '\n'] 1
     (by decide),
   by decide,
   (c3_cursor (fun _ => none) ⟨true, true, true, true, true⟩).2.2.1 ['a'] 3 (by decide)⟩

theorem printToolResult_stderr_bound (content : Option (List Char))
    (tur : Option ToolUseResult) :
    ∀ u ∈ printToolResult content tur, ∀ t, u = ToolOut.stderrLine t → t.length ≤ 200 := by
  intro u hu t hut
  subst hut
  unfold printToolResult at hu
  dsimp only at hu
  split at hu
  · simp at hu
  · simp only [List.mem_cons, List.mem_append] at hu
    rcases hu with hu | hu | hu
    · exact absurd hu (by simp)
    · split at hu
      · simp only [List.mem_append] at hu
        rcases hu with hu | hu
        · rcases List.mem_map.mp hu with ⟨l, _, hl⟩
          exact absurd hl (by simp)
        · split at hu <;> simp at hu
      · simp at hu
    · split at hu
      · have ht : t = ((tur.bind fun r => r.stderr).getD []).take 200 := by
          simpa using hu
        rw [ht]
        have := List.length_take 200 ((tur.bind fun r => r.stderr).getD [])
        omega
      · simp at hu

/-- C7: the tool-result renderer prefers the sidecar's captured stdout
text over the inline content field when the former is present (and
nonempty, hence truthy), truncates the body to the first 15 lines with a
summary naming the count of remaining lines, and separately renders a
stderr excerpt of at most 200 characters when stderr is present.  The
right-hand side does not mention `content`: the inline field is
ignored. -/
theorem c7_tool_result (content : Option (List Char)) (r : ToolUseResult)
    (s : List Char) (hs : r.stdout = some s) (hne : s ≠ []) :
    printToolResult content (some r) =
      ToolOut.arrow ::
        (((splitNl s).take 15).map ToolOut.body ++
         (if 15 < (splitNl s).length then [ToolOut.more ((splitNl s).length - 15)] else []) ++
         (match r.stderr with
          | some t => if t.isEmpty then [] else [ToolOut.stderrLine (t.take 200)]
          | none => [])) ∧
    (∀ u ∈ printToolResult content (some r), ∀ t, u = ToolOut.stderrLine t →
      t.length ≤ 200) := by
  have hne' : s.isEmpty = false := by
    simp [List.isEmpty_iff, hne]
  refine ⟨?_, printToolResult_stderr_bound content (some r)⟩
  have ht : strTruthy (some s) = true := by
    simp [strTruthy, hne']
  have hjs : jsOrStr (some s) content = some s := by
    unfold jsOrStr
    rw [if_pos ht]
  unfold printToolResult
  dsimp only
  simp only [Option.some_bind]
  rw [hs, hjs, ht]
  simp only [Bool.not_true, Bool.false_and, Bool.false_eq_true, if_false, if_true,
    Option.getD_some]
  rcases hst : r.stderr with _ | t
  · simp [strTruthy]
  · by_cases htt : t.isEmpty
    · simp [strTruthy, htt]
    · simp [strTruthy, htt]

theorem c7_tool_result_witness :
    (⟨some ['o'], some ['e'], false⟩ : ToolUseResult).stdout = some ['o'] ∧
    (['o'] : List Char) ≠ [] ∧
    printToolResult (some ['x']) (some ⟨some ['o'], some ['e'], false⟩) =
      [ToolOut.arrow, ToolOut.body ['o'], ToolOut.stderrLine ['e']] :=
  ⟨rfl, by decide,
   (c7_tool_result (some ['x']) ⟨some ['o'], some ['e'], false⟩ ['o'] rfl (by decide)).1⟩

/-- C10: when the sidecar is present but its stdout field is the empty
string, the renderer behaves exactly as if the sidecar had no stdout
field at all (the preference test is truthiness, not presence), falling
back to the inline content field; and when the resolved output and
stderr are both absent or empty, nothing at all is printed, not even the
header marker. -/
theorem c10_sidecar_fallback :
    (∀ (content : Option (List Char)) (r : ToolUseResult), r.stdout = some [] →
      printToolResult content (some r) =
        printToolResult content (some ⟨none, r.stderr, r.isError⟩)) ∧
    (∀ (content : Option (List Char)) (tur : Option ToolUseResult),
      strTruthy content = false →
      strTruthy (tur.bind fun r => r.stdout) = false →
      strTruthy (tur.bind fun r => r.stderr) = false →
      printToolResult content tur = []) := by
  constructor
  · intro content r hr
    have h1 : jsOrStr (some ([] : List Char)) content = content := by
      unfold jsOrStr
      rw [if_neg (by simp [strTruthy])]
    have h2 : jsOrStr none content = content := by
      unfold jsOrStr
      rw [if_neg (by simp [strTruthy])]
    unfold printToolResult
    dsimp only
    simp only [Option.some_bind]
    rw [hr, h1, h2]
  · intro content tur hc hstdout hstderr
    have hout : jsOrStr (tur.bind fun r => r.stdout) content = content := by
      unfold jsOrStr
      rw [hstdout]
      simp
    unfold printToolResult
    dsimp only
    rw [hout, hc, hstderr]
    simp

theorem c10_sidecar_fallback_witness :
    (⟨some [], some ['e'], false⟩ : ToolUseResult).stdout = some [] ∧
    printToolResult (some ['x']) (some ⟨some [], some ['e'], false⟩) =
      printToolResult (some ['x']) (some ⟨none, some ['e'], false⟩) ∧
    printToolResult (some []) (some ⟨some [], some [], true⟩) = [] :=
  ⟨rfl,
   c10_sidecar_fallback.1 (some ['x']) ⟨some [], some ['e'], false⟩ rfl,
   c10_sidecar_fallback.2 (some []) (some ⟨some [], some [], true⟩) (by decide) (by decide)
     (by decide)⟩

/-- C8: a line that fails to parse is silently skipped (it contributes no
events and processing continues with the next line), and interleaving
malformed lines between valid lines never drops or reorders the events
of the valid lines: the event stream equals that of the parseable lines
alone. -/
theorem c8_error_isolation :
    (∀ (parse : List Char → Option Entry) (o : Opts) (lines : List (List Char)),
      processLines parse o lines =
        processLines parse o (lines.filter (fun l => (parse l).isSome))) ∧
    (∀ (parse : List Char → Option Entry) (o : Opts) (m : List Char)
      (lines : List (List Char)), parse m = none →
      processLines parse o (m :: lines) = processLines parse o lines) := by
  have key : ∀ (parse : List Char → Option Entry) (o : Opts) (lines : List (List Char)),
      processLines parse o lines =
        processLines parse o (lines.filter (fun l => (parse l).isSome)) := by
    intro parse o lines
    induction lines with
    | nil => rfl
    | cons l ls ih =>
      cases h : parse l with
      | none =>
        simp only [processLines, List.flatMap_cons, List.filter_cons, h, Option.isSome_none,
          Bool.false_eq_true, if_false, entryEvents]
        simpa [processLines] using ih
      | some e =>
        simp only [processLines, List.flatMap_cons, List.filter_cons, h, Option.isSome_some,
          if_true, entryEvents]
        simpa [processLines, entryEvents] using ih
  refine ⟨key, ?_⟩
  intro parse o m lines h
  simp [processLines, entryEvents, h]

theorem c8_error_isolation_witness :
    (fun l => if l = ['a'] then some (⟨none, none, none, none⟩ : Entry) else none) ['b'] =
      none ∧
    processLines (fun l => if l = ['a'] then some ⟨none, none, none, none⟩ else none)
      ⟨true, true, true, true, true⟩ (['b'] :: [['a']]) =
      processLines (fun l => if l = ['a'] then some ⟨none, none, none, none⟩ else none)
        ⟨true, true, true, true, true⟩ [['a']] :=
  ⟨by decide,
   c8_error_isolation.2 (fun l => if l = ['a'] then some ⟨none, none, none, none⟩ else none)
     ⟨true, true, true, true, true⟩ ['b'] [['a']] (by decide)⟩

/-- C1 counterexample: the file grows from `"ab\n"` (3 bytes, cursor 3) to
`"ab\ncd"` (5 bytes); the appended range `"cd"` has no terminating
newline.  The claim says the cursor advance excludes the partial line
(so the cursor should stay at 3) and the partial line is not parsed; the
code advances the cursor to 5 and hands `"cd"` to `JSON.parse` like any
complete line. -/
theorem c1_counterexample :
    (onChange (fun _ => none) ⟨true, true, true, true, true⟩ ['a', 'b', '\n', 'c', 'd'] 3).1 =
      5 ∧
    (5 : Nat) ≠ 3 ∧
    ['c', 'd'] ∈ nonEmptyLines ((['a', 'b', '\n', 'c', 'd'].drop 3).take (5 - 3)) ∧
    trailingPiece ((['a', 'b', '\n', 'c', 'd'].drop 3).take (5 - 3)) = ['c', 'd'] := by
  decide

/-- C1 (amended): on a change notification where the file grew, the
cursor advances to the full new file size — whether or not the appended
range ends in a newline — every nonempty piece of the appended range,
including a nonempty trailing piece not terminated by a newline, is
handed to the parser (a failure being silently swallowed), and the
partial line's bytes are never re-attempted: a later notification with
the file unchanged is a no-op. -/
theorem c1_amended (parse : List Char → Option Entry) (o : Opts) (file : List Char)
    (st : Nat) (hgrow : st < file.length) :
    (onChange parse o file st).1 = file.length ∧
    (onChange parse o file st).2 =
      processLines parse o (nonEmptyLines ((file.drop st).take (file.length - st))) ∧
    (∀ p, (splitNl ((file.drop st).take (file.length - st))).getLast? = some p → p ≠ [] →
      p ∈ nonEmptyLines ((file.drop st).take (file.length - st))) ∧
    onChange parse o file (onChange parse o file st).1 = (file.length, []) := by
  have h1 : (onChange parse o file st).1 = file.length := by
    unfold onChange
    dsimp only
    rw [if_pos hgrow]
  refine ⟨h1, ?_, ?_, ?_⟩
  · unfold onChange
    dsimp only
    rw [if_pos hgrow]
    rfl
  · intro p hp hpne
    exact List.mem_filter.mpr
      ⟨List.mem_of_mem_getLast? hp, by simp [List.isEmpty_iff, hpne]⟩
  · rw [h1]
    unfold onChange
    dsimp only
    rw [if_neg (lt_irrefl _)]

theorem c1_amended_witness :
    (3 : Nat) < (['a', 'b', '\n', 'c', 'd'] : List Char).length ∧
    (onChange (fun _ => none) ⟨true, true, true, true, true⟩ ['a', 'b', '\n', 'c', 'd'] 3).1 =
      (['a', 'b', '\n', 'c', 'd'] : List Char).length ∧
    ['c', 'd'] ∈
      nonEmptyLines (((['a', 'b', '\n', 'c', 'd'] : List Char).drop 3).take
        ((['a', 'b', '\n', 'c', 'd'] : List Char).length - 3)) :=
  ⟨by decide,
   (c1_amended (fun _ => none) ⟨true, true, true, true, true⟩ ['a', 'b', '\n', 'c', 'd'] 3
     (by decide)).1,
   (c1_amended (fun _ => none) ⟨true, true, true, true, true⟩ ['a', 'b', '\n', 'c', 'd'] 3
     (by decide)).2.2.1 ['c', 'd'] (by decide) (by decide)⟩

theorem unlines_cons (l : List Char) (ls : List (List Char)) :
    unlines (l :: ls) = l ++ '\n' :: unlines ls := by
  simp [unlines]

theorem unlines_append (a b : List (List Char)) :
    unlines (a ++ b) = unlines a ++ unlines b := by
  simp [unlines]

theorem splitNl_unlines (ls : List (List Char)) (h : ∀ l ∈ ls, '\n' ∉ l) :
    splitNl (unlines ls) = ls ++ [[]] := by
  induction ls with
  | nil => simp [unlines, splitNl_nil]
  | cons l ls ih =>
    rw [unlines_cons, splitNl_append_nl,
      splitNl_single l (by
        intro c hc he
        exact h l (List.mem_cons_self l ls) (he ▸ hc)),
      ih (fun x hx => h x (List.mem_cons_of_mem l hx))]
    rfl

theorem nonEmptyLines_unlines (ls : List (List Char)) (h : ∀ l ∈ ls, '\n' ∉ l) :
    nonEmptyLines (unlines ls) = ls.filter (fun l => !l.isEmpty) := by
  unfold nonEmptyLines
  rw [splitNl_unlines ls h, List.filter_append]
  simp

theorem processChunk_unlines (parse : List Char → Option Entry) (o : Opts)
    (ls : List (List Char)) (h : ∀ l ∈ ls, '\n' ∉ l) :
    processChunk parse o (unlines ls) =
      processLines parse o (ls.filter (fun l => !l.isEmpty)) := by
  unfold processChunk
  rw [nonEmptyLines_unlines ls h]

theorem chunk_split (parse : List Char → Option Entry) (o : Opts) :
    ∀ lss : List (List (List Char)), (∀ ls ∈ lss, ∀ l ∈ ls, '\n' ∉ l) →
    processChunk parse o (unlines lss.flatten) =
      (lss.map (fun ls => processChunk parse o (unlines ls))).flatten := by
  intro lss
  induction lss with
  | nil => intro h; rfl
  | cons ls lss ih =>
    intro h
    have hls : ∀ l ∈ ls, '\n' ∉ l := h ls (List.mem_cons_self ls lss)
    have hrest : ∀ ls' ∈ lss, ∀ l ∈ ls', '\n' ∉ l :=
      fun ls' h1 => h ls' (List.mem_cons_of_mem ls h1)
    have hflat : ∀ l ∈ (ls :: lss).flatten, '\n' ∉ l := by
      intro l hl
      rcases List.mem_flatten.mp hl with ⟨s, hs, hmem⟩
      exact h s hs l hmem
    have hflat' : ∀ l ∈ lss.flatten, '\n' ∉ l := by
      intro l hl
      rcases List.mem_flatten.mp hl with ⟨s, hs, hmem⟩
      exact hrest s hs l hmem
    rw [processChunk_unlines parse o _ hflat, List.flatten_cons, List.filter_append]
    unfold processLines
    rw [List.flatMap_append, List.map_cons, List.flatten_cons]
    congr 1
    · rw [processChunk_unlines parse o ls hls]
      rfl
    · rw [← ih hrest, processChunk_unlines parse o lss.flatten hflat']
      rfl

theorem onChange_zero (parse : List Char → Option Entry) (o : Opts) (u : List Char) :
    onChange parse o u 0 = (u.length, processChunk parse o u) := by
  rcases u with _ | ⟨c, cs⟩
  · rfl
  · unfold onChange
    dsimp only
    rw [if_pos (by simp)]
    rw [List.drop_zero, Nat.sub_zero, List.take_length]

theorem onChange_shift (parse : List Char → Option Entry) (o : Opts)
    (pre f : List Char) (st : Nat) :
    onChange parse o (pre ++ f) (pre.length + st) =
      (pre.length + (onChange parse o f st).1, (onChange parse o f st).2) := by
  unfold onChange
  dsimp only
  rw [List.length_append]
  by_cases h : st < f.length
  · rw [if_pos (by omega), if_pos h]
    have hdrop : (pre ++ f).drop (pre.length + st) = f.drop st := List.drop_append st
    have hsub : pre.length + f.length - (pre.length + st) = f.length - st := by omega
    rw [hdrop, hsub]
  · rw [if_neg (by omega), if_neg h]

theorem runWatch_acc (parse : List Char → Option Entry) (o : Opts) :
    ∀ (files : List (List Char)) (st : Nat) (ev : List Event),
    files.foldl (fun acc f =>
      let r := onChange parse o f acc.1
      (r.1, acc.2 ++ r.2)) (st, ev) =
      ((runWatch parse o files st).1, ev ++ (runWatch parse o files st).2) := by
  intro files
  induction files with
  | nil =>
    intro st ev
    simp [runWatch]
  | cons f fs ih =>
    intro st ev
    unfold runWatch
    simp only [List.foldl_cons]
    rw [ih ((onChange parse o f st).1) (ev ++ (onChange parse o f st).2),
      ih ((onChange parse o f st).1) ([] ++ (onChange parse o f st).2)]
    simp

theorem runWatch_snapshotsFrom (parse : List Char → Option Entry) (o : Opts) :
    ∀ (lss : List (List (List Char))) (pre : List Char),
    runWatch parse o (snapshotsFrom pre lss) pre.length =
      (pre.length + (unlines lss.flatten).length,
       (lss.map (fun ls => processChunk parse o (unlines ls))).flatten) := by
  intro lss
  induction lss with
  | nil =>
    intro pre
    simp [snapshotsFrom, runWatch, unlines]
  | cons ls lss ih =>
    intro pre
    have hstep : onChange parse o (pre ++ unlines ls) pre.length =
        (pre.length + (unlines ls).length, processChunk parse o (unlines ls)) := by
      have h0 := onChange_shift parse o pre (unlines ls) 0
      rw [onChange_zero] at h0
      simpa using h0
    unfold snapshotsFrom runWatch
    simp only [List.foldl_cons]
    rw [hstep]
    have hacc := runWatch_acc parse o (snapshotsFrom (pre ++ unlines ls) lss)
      (pre.length + (unlines ls).length) ([] ++ processChunk parse o (unlines ls))
    have hlen : pre.length + (unlines ls).length = (pre ++ unlines ls).length := by
      rw [List.length_append]
    rw [hlen] at hacc ⊢
    rw [hacc, ih (pre ++ unlines ls)]
    rw [List.flatten_cons, unlines_append, List.map_cons, List.flatten_cons]
    simp [Nat.add_assoc]

/-- C2: for any list of lines grouped into chunks at line boundaries, the
replay-phase processing of the whole file as one chunk emits exactly the
concatenation of the events of the individual chunks, and a follow phase
receiving the file chunk by chunk (one change notification per chunk)
ends with the cursor at the file's length having emitted those same
events in the same order. -/
theorem c2_chunking (parse : List Char → Option Entry) (o : Opts)
    (lss : List (List (List Char))) (h : ∀ ls ∈ lss, ∀ l ∈ ls, '\n' ∉ l) :
    processChunk parse o (unlines lss.flatten) =
      (lss.map (fun ls => processChunk parse o (unlines ls))).flatten ∧
    runWatch parse o (snapshots lss) 0 =
      ((unlines lss.flatten).length, processChunk parse o (unlines lss.flatten)) := by
  have p1 := chunk_split parse o lss h
  refine ⟨p1, ?_⟩
  have p2 := runWatch_snapshotsFrom parse o lss []
  simp only [List.length_nil, Nat.zero_add] at p2
  unfold snapshots
  rw [p2, ← p1]

theorem c2_chunking_witness :
    processChunk
        (fun l => if l = ['a'] then
          some (Entry.mk none (some (MsgContent.items [Item.thinking ['t']])) none none)
          else none)
        ⟨true, true, true, true, true⟩
        (unlines ([[['a']], [['b'], ['a']]] : List (List (List Char))).flatten) =
      (([[['a']], [['b'], ['a']]] : List (List (List Char))).map
        (fun ls => processChunk
          (fun l => if l = ['a'] then
            some (Entry.mk none (some (MsgContent.items [Item.thinking ['t']])) none none)
            else none)
          ⟨true, true, true, true, true⟩ (unlines ls))).flatten ∧
    runWatch
        (fun l => if l = ['a'] then
          some (Entry.mk none (some (MsgContent.items [Item.thinking ['t']])) none none)
          else none)
        ⟨true, true, true, true, true⟩
        (snapshots ([[['a']], [['b'], ['a']]] : List (List (List Char)))) 0 =
      ((unlines ([[['a']], [['b'], ['a']]] : List (List (List Char))).flatten).length,
       processChunk
        (fun l => if l = ['a'] then
          some (Entry.mk none (some (MsgContent.items [Item.thinking ['t']])) none none)
          else none)
        ⟨true, true, true, true, true⟩
        (unlines ([[['a']], [['b'], ['a']]] : List (List (List Char))).flatten)) :=
  c2_chunking
    (fun l => if l = ['a'] then
      some (Entry.mk none (some (MsgContent.items [Item.thinking ['t']])) none none)
      else none)
    ⟨true, true, true, true, true⟩ [[['a']], [['b'], ['a']]] (by decide)

theorem length_dropWhile_le {α : Type} (p : α → Bool) (l : List α) :
    (l.dropWhile p).length ≤ l.length := by
  induction l with
  | nil => simp
  | cons a l ih =>
    rw [List.dropWhile_cons]
    split
    · exact le_trans ih (by simp)
    · exact le_rfl

theorem tokenizeF_flatten : ∀ (fuel : Nat) (l : List Char), l.length ≤ fuel →
    (tokenizeF fuel l).flatten = l := by
  intro fuel
  induction fuel with
  | zero =>
    intro l hl
    have : l = [] := List.length_eq_zero.mp (Nat.le_zero.mp hl)
    subst this
    rfl
  | succ fuel ih =>
    intro l hl
    rcases l with _ | ⟨c, cs⟩
    · rfl
    · simp only [tokenizeF, List.flatten_cons]
      rw [ih (cs.dropWhile fun x => isWsChar x == isWsChar c)
        (le_trans (length_dropWhile_le _ cs) (by simpa using hl))]
      rw [List.cons_append, List.takeWhile_append_dropWhile]

theorem tokenize_flatten (l : List Char) : (tokenize l).flatten = l :=
  tokenizeF_flatten l.length l le_rfl

theorem tokenize_mem_subset (l tok : List Char) (htok : tok ∈ tokenize l) :
    ∀ c ∈ tok, c ∈ l := by
  intro c hc
  rw [← tokenize_flatten l]
  exact List.mem_flatten.mpr ⟨tok, htok, hc⟩

theorem trimStartWs_filter (p : Char → Bool) (hp : ∀ c, isWsChar c = true → p c = false)
    (w : List Char) : (trimStartWs w).filter p = w.filter p := by
  unfold trimStartWs
  induction w with
  | nil => rfl
  | cons c cs ih =>
    rw [List.dropWhile_cons]
    split
    · next hws =>
      rw [ih, List.filter_cons, hp c hws]
      simp
    · rfl

theorem trimStartWs_nil_of_ws (w : List Char) (h : ∀ c ∈ w, isWsChar c = true) :
    trimStartWs w = [] :=
  List.dropWhile_eq_nil_iff.mpr h

theorem trimStartWs_length_le (w : List Char) : (trimStartWs w).length ≤ w.length :=
  length_dropWhile_le isWsChar w

theorem trimStartWs_subset (w : List Char) : ∀ c ∈ trimStartWs w, c ∈ w :=
  fun _ hc => (List.dropWhile_sublist isWsChar).subset hc

theorem wrapStep_filter (maxW : Nat) (p : Char → Bool)
    (hp : ∀ c, isWsChar c = true → p c = false) (st : WrapSt) (w : List Char) :
    ((wrapStep maxW st w).wrapped.flatten ++ (wrapStep maxW st w).current).filter p =
      (st.wrapped.flatten ++ st.current ++ w).filter p := by
  unfold wrapStep
  split
  · simp
  · dsimp only
    by_cases hc : st.current.isEmpty
    · have hcur : st.current = [] := by
        simpa [List.isEmpty_iff] using hc
      rw [if_pos hc]
      simp [hcur, List.filter_append, trimStartWs_filter p hp w]
    · rw [if_neg hc]
      simp [List.filter_append, trimStartWs_filter p hp w, List.append_assoc]

theorem wrapFold_filter (maxW : Nat) (p : Char → Bool)
    (hp : ∀ c, isWsChar c = true → p c = false) :
    ∀ (toks : List (List Char)) (st : WrapSt),
    ((toks.foldl (wrapStep maxW) st).wrapped.flatten ++
      (toks.foldl (wrapStep maxW) st).current).filter p =
      (st.wrapped.flatten ++ st.current ++ toks.flatten).filter p := by
  intro toks
  induction toks with
  | nil => intro st; simp
  | cons w toks ih =>
    intro st
    rw [List.foldl_cons, ih (wrapStep maxW st w), List.flatten_cons]
    rw [List.filter_append, wrapStep_filter maxW p hp st w]
    simp [List.filter_append, List.append_assoc]

theorem wrapLine_filter (maxW : Nat) (p : Char → Bool)
    (hp : ∀ c, isWsChar c = true → p c = false) (line : List Char) :
    (wrapLine maxW line).flatten.filter p = line.filter p := by
  unfold wrapLine
  dsimp only
  have h := wrapFold_filter maxW p hp (tokenize line) ⟨[], []⟩
  simp only [List.flatten_nil, List.nil_append] at h
  rw [tokenize_flatten] at h
  by_cases hc : ((tokenize line).foldl (wrapStep maxW) ⟨[], []⟩).current.isEmpty
  · have hcur : ((tokenize line).foldl (wrapStep maxW) ⟨[], []⟩).current = [] := by
      simpa [List.isEmpty_iff] using hc
    rw [if_pos hc, List.append_nil]
    rw [hcur] at h
    simpa using h
  · rw [if_neg hc]
    rw [List.flatten_append, List.flatten_cons, List.flatten_nil, List.append_nil]
    exact h

theorem wrapLine_mem (maxW : Nat) (line ch : List Char) (hch : ch ∈ wrapLine maxW line) :
    ∀ c ∈ ch, c ∈ line := by
  have key : ∀ (toks : List (List Char)) (st : WrapSt) (c : Char),
      c ∈ (toks.foldl (wrapStep maxW) st).wrapped.flatten ++
        (toks.foldl (wrapStep maxW) st).current →
      c ∈ st.wrapped.flatten ++ st.current ++ toks.flatten := by
    intro toks
    induction toks with
    | nil =>
      intro st c hc
      simpa using hc
    | cons w toks ih =>
      intro st c hc
      have h1 := ih (wrapStep maxW st w) c (by simpa using hc)
      rw [List.flatten_cons]
      have h2 : c ∈ (wrapStep maxW st w).wrapped.flatten ++
          (wrapStep maxW st w).current ++ toks.flatten := h1
      simp only [List.mem_append] at h2 ⊢
      rcases h2 with (h2 | h2) | h2
      · unfold wrapStep at h2
        split at h2
        · exact Or.inl (Or.inl (by simpa using h2))
        · simp only [List.flatten_append, List.mem_append] at h2
          rcases h2 with h2 | h2
          · exact Or.inl (Or.inl h2)
          · split at h2 <;> simp only [List.flatten_cons, List.flatten_nil] at h2
            · simp at h2
            · exact Or.inl (Or.inr (by simpa using h2))
      · unfold wrapStep at h2
        split at h2
        · dsimp only at h2
          rcases List.mem_append.mp h2 with h2 | h2
          · exact Or.inl (Or.inr h2)
          · exact Or.inr (Or.inl h2)
        · exact Or.inr (Or.inl (trimStartWs_subset w c h2))
      · exact Or.inr (Or.inr h2)
  intro c hc
  have hmem : c ∈ (wrapLine maxW line).flatten := List.mem_flatten.mpr ⟨ch, hch, hc⟩
  unfold wrapLine at hmem
  dsimp only at hmem
  have hmem2 : c ∈ ((tokenize line).foldl (wrapStep maxW) ⟨[], []⟩).wrapped.flatten ++
      ((tokenize line).foldl (wrapStep maxW) ⟨[], []⟩).current := by
    by_cases hcc : ((tokenize line).foldl (wrapStep maxW) ⟨[], []⟩).current.isEmpty
    · rw [if_pos hcc, List.append_nil] at hmem
      exact List.mem_append.mpr (Or.inl hmem)
    · rw [if_neg hcc, List.flatten_append, List.flatten_cons, List.flatten_nil,
        List.append_nil] at hmem
      exact hmem
  have hfin := key (tokenize line) ⟨[], []⟩ c hmem2
  simp only [List.flatten_nil, List.nil_append] at hfin
  rwa [tokenize_flatten] at hfin

theorem wrapFold_bound (maxW : Nat) :
    ∀ (toks : List (List Char)) (st : WrapSt),
    (∀ w ∈ toks, w.any (fun c => !isWsChar c) = true → w.length ≤ maxW) →
    st.current.length ≤ maxW →
    (∀ ch ∈ st.wrapped, ch.length ≤ maxW) →
    (toks.foldl (wrapStep maxW) st).current.length ≤ maxW ∧
      ∀ ch ∈ (toks.foldl (wrapStep maxW) st).wrapped, ch.length ≤ maxW := by
  intro toks
  induction toks with
  | nil =>
    intro st htoks hcur hwr
    exact ⟨hcur, hwr⟩
  | cons w toks ih =>
    intro st htoks hcur hwr
    rw [List.foldl_cons]
    refine ih (wrapStep maxW st w)
      (fun w2 hw2 hany => htoks w2 (List.mem_cons_of_mem w hw2) hany) ?_ ?_
    · unfold wrapStep
      split
      · next hle =>
        dsimp only
        rw [List.length_append]
        omega
      · dsimp only
        by_cases hany : w.any (fun c => !isWsChar c) = true
        · exact le_trans (trimStartWs_length_le w) (htoks w (List.mem_cons_self w toks) hany)
        · have hws : ∀ c ∈ w, isWsChar c = true := by
            intro c hcw
            by_contra hnc
            exact hany (List.any_eq_true.mpr ⟨c, hcw, by simp [Bool.eq_false_iff.mpr hnc]⟩)
          rw [trimStartWs_nil_of_ws w hws]
          simp
    · intro ch hch
      unfold wrapStep at hch
      split at hch
      · exact hwr ch hch
      · dsimp only at hch
        rcases List.mem_append.mp hch with hch | hch
        · exact hwr ch hch
        · split at hch
          · simp at hch
          · have : ch = st.current := by simpa using hch
            rw [this]
            exact hcur

theorem wrapLine_bound (maxW : Nat) (line : List Char)
    (htoks : ∀ w ∈ tokenize line, w.any (fun c => !isWsChar c) = true → w.length ≤ maxW) :
    ∀ ch ∈ wrapLine maxW line, ch.length ≤ maxW := by
  have h := wrapFold_bound maxW (tokenize line) ⟨[], []⟩ htoks (by simp) (by simp)
  intro ch hch
  unfold wrapLine at hch
  dsimp only at hch
  rcases List.mem_append.mp hch with hch | hch
  · exact h.2 ch hch
  · split at hch
    · simp at hch
    · have : ch = ((tokenize line).foldl (wrapStep maxW) ⟨[], []⟩).current := by
        simpa using hch
      rw [this]
      exact h.1

theorem joinSep_cons (sep x : List Char) (xs : List (List Char)) (h : xs ≠ []) :
    joinSep sep (x :: xs) = x ++ sep ++ joinSep sep xs := by
  rcases xs with _ | ⟨y, ys⟩
  · exact absurd rfl h
  · rfl

theorem splitNl_joinSep_nl :
    ∀ ys : List (List Char), ys ≠ [] →
    splitNl (joinSep ['\n'] ys) = (ys.map splitNl).flatten := by
  intro ys
  induction ys with
  | nil => intro h; exact absurd rfl h
  | cons y ys ih =>
    intro _
    rcases ys with _ | ⟨y2, ys2⟩
    · simp [joinSep]
    · rw [joinSep_cons ['\n'] y (y2 :: ys2) (by simp)]
      rw [show y ++ ['\n'] ++ joinSep ['\n'] (y2 :: ys2) =
        y ++ '\n' :: joinSep ['\n'] (y2 :: ys2) by simp]
      rw [splitNl_append_nl, ih (by simp)]
      simp

theorem splitNl_joinSep_ind (ind : List Char) (hind : ∀ c ∈ ind, c ≠ '\n') :
    ∀ (ys : List (List Char)) (y : List Char), (∀ z ∈ y :: ys, ∀ c ∈ z, c ≠ '\n') →
    splitNl (joinSep ('\n' :: ind) (y :: ys)) = y :: ys.map (fun z => ind ++ z) := by
  intro ys
  induction ys with
  | nil =>
    intro y h
    rw [show joinSep ('\n' :: ind) [y] = y from rfl,
      splitNl_single y (h y (List.mem_cons_self y []))]
    rfl
  | cons y2 ys ih =>
    intro y h
    rw [joinSep_cons ('\n' :: ind) y (y2 :: ys) (by simp)]
    rw [show y ++ ('\n' :: ind) ++ joinSep ('\n' :: ind) (y2 :: ys) =
      y ++ '\n' :: (ind ++ joinSep ('\n' :: ind) (y2 :: ys)) by simp]
    rw [splitNl_append_nl, splitNl_single y (h y (List.mem_cons_self y (y2 :: ys)))]
    have hrec := ih y2 (fun z hz => h z (List.mem_cons_of_mem y hz))
    rw [splitNl_prepend ind _ hind _ _ hrec]
    simp

theorem joinSep_filter (p : Char → Bool) (sep : List Char) (hsep : sep.filter p = []) :
    ∀ ys : List (List Char),
    (joinSep sep ys).filter p = (ys.map (fun y => y.filter p)).flatten := by
  intro ys
  induction ys with
  | nil => rfl
  | cons y ys ih =>
    rcases ys with _ | ⟨y2, ys2⟩
    · simp [joinSep]
    · rw [joinSep_cons sep y (y2 :: ys2) (by simp)]
      rw [List.filter_append, List.filter_append, hsep, ih]
      simp

theorem splitNl_filter_flatten (p : Char → Bool) (hpn : p '\n' = false) :
    ∀ t : List Char, ((splitNl t).map (fun l => l.filter p)).flatten = t.filter p := by
  intro t
  induction t with
  | nil => simp [splitNl_nil]
  | cons c cs ih =>
    by_cases hc : c = '\n'
    · subst hc
      rw [splitNl_cons_nl, List.map_cons, List.flatten_cons, List.filter_cons, hpn]
      simpa using ih
    · rcases he : splitNl cs with _ | ⟨l, ls⟩
      · exact absurd he (splitNl_ne_nil cs)
      · rw [splitNl_cons_ne c cs hc l ls he, List.map_cons, List.flatten_cons]
        rw [he, List.map_cons, List.flatten_cons] at ih
        rw [List.filter_cons, List.filter_cons]
        by_cases hpc : p c
        · simp only [hpc, if_true]
          rw [List.cons_append, ih]
        · simp only [hpc]
          simp [ih]

/-- C6 counterexample: a single 21-character word at width 20 (indent 0,
so the usable width 20 is at and above the minimal threshold) is
returned as one unbroken output line of length 21 > 20: greedy packing
never breaks inside a word, so an unbreakable word exceeds the
configured width. -/
theorem c6_counterexample :
    wrapText 20 0 (List.replicate 21 'a') = List.replicate 21 'a' ∧
    20 ≤ 20 - 0 ∧
    List.replicate 21 'a' ∈ splitNl (wrapText 20 0 (List.replicate 21 'a')) ∧
    20 < (List.replicate 21 'a').length := by
  decide

/-- C6 (amended): word wrapping preserves all non-whitespace characters
unconditionally; when the usable width `W - I` is below the minimal
threshold of 20 the text is passed through unchanged; and when
`20 ≤ W - I` and every whitespace-delimited word of the text fits in
`W - I`, no output line is longer than `W` (a continuation line consists
of the indent plus a packed chunk of at most `W - I` characters). -/
theorem c6_wrap_amended (width indent : Nat) (text : List Char) :
    (wrapText width indent text).filter (fun c => !isWsChar c) =
      text.filter (fun c => !isWsChar c) ∧
    (width - indent < 20 → wrapText width indent text = text) ∧
    (20 ≤ width - indent →
      (∀ line ∈ splitNl text, ∀ tok ∈ tokenize line,
        tok.any (fun c => !isWsChar c) = true → tok.length ≤ width - indent) →
      ∀ out ∈ splitNl (wrapText width indent text), out.length ≤ width) := by
  have hp : ∀ c, isWsChar c = true → (fun c => !isWsChar c) c = false := by
    intro c hc
    simp [hc]
  have hsep1 : (['\n'] : List Char).filter (fun c => !isWsChar c) = [] := by decide
  have h1 : (!isWsChar '\n') = false := by decide
  have h2 : (!isWsChar ' ') = false := by decide
  have hsep2 : ('\n' :: List.replicate indent ' ').filter (fun c => !isWsChar c) = [] := by
    rw [List.filter_cons]
    simp [List.filter_replicate, h1, h2]
  refine ⟨?_, ?_, ?_⟩
  · unfold wrapText
    dsimp only
    by_cases h20 : width - indent < 20
    · rw [if_pos h20]
    · rw [if_neg h20]
      rw [joinSep_filter (fun c => !isWsChar c) ['\n'] hsep1, List.map_map]
      have hline : ∀ line ∈ splitNl text,
          ((fun y => y.filter (fun c => !isWsChar c)) ∘ fun line =>
            if line.length ≤ width - indent then line
            else joinSep ('\n' :: List.replicate indent ' ')
              (wrapLine (width - indent) line)) line =
            line.filter (fun c => !isWsChar c) := by
        intro line hl
        dsimp only [Function.comp]
        by_cases hlen : line.length ≤ width - indent
        · rw [if_pos hlen]
        · rw [if_neg hlen]
          rw [joinSep_filter (fun c => !isWsChar c) _ hsep2]
          rw [← List.filter_flatten]
          exact wrapLine_filter (width - indent) _ hp line
      rw [List.map_congr_left hline, splitNl_filter_flatten _ h1]
  · intro h20
    unfold wrapText
    dsimp only
    rw [if_pos h20]
  · intro h20 htoks out hout
    unfold wrapText at hout
    dsimp only at hout
    rw [if_neg (by omega)] at hout
    rw [splitNl_joinSep_nl _ (by
      intro habs
      exact splitNl_ne_nil text (List.map_eq_nil_iff.mp habs))] at hout
    rw [List.map_map] at hout
    rcases List.mem_flatten.mp hout with ⟨s, hs, hout2⟩
    rcases List.mem_map.mp hs with ⟨line, hline, hseq⟩
    have hnl : ∀ c ∈ line, c ≠ '\n' :=
      fun c hc he => splitNl_no_nl text line hline (he ▸ hc)
    subst hseq
    dsimp only [Function.comp] at hout2
    by_cases hlen : line.length ≤ width - indent
    · rw [if_pos hlen, splitNl_single line hnl] at hout2
      have : out = line := by simpa using hout2
      rw [this]
      omega
    · rw [if_neg hlen] at hout2
      have hchnl : ∀ z ∈ wrapLine (width - indent) line, ∀ c ∈ z, c ≠ '\n' := by
        intro z hz c hc he
        exact hnl c (wrapLine_mem (width - indent) line z hz c hc) he
      have hbound := wrapLine_bound (width - indent) line (htoks line hline)
      rcases hwl : wrapLine (width - indent) line with _ | ⟨ch, chs⟩
      · rw [hwl] at hout2
        have : out = [] := by
          rw [show joinSep ('\n' :: List.replicate indent ' ') [] = [] from rfl] at hout2
          rw [splitNl_nil] at hout2
          simpa using hout2
        rw [this]
        simp
      · rw [hwl] at hout2
        rw [splitNl_joinSep_ind (List.replicate indent ' ')
          (fun c hc => by
            have := (List.mem_replicate.mp hc).2
            rw [this]
            decide)
          chs ch (by
            intro z hz
            exact hchnl z (hwl ▸ hz))] at hout2
        rcases List.mem_cons.mp hout2 with hq | hq
        · have hb := hbound ch (by rw [hwl]; exact List.mem_cons_self ch chs)
          rw [hq]
          omega
        · rcases List.mem_map.mp hq with ⟨z, hz, hzeq⟩
          have hb := hbound z (by rw [hwl]; exact List.mem_cons_of_mem ch hz)
          rw [← hzeq, List.length_append, List.length_replicate]
          omega

theorem c6_wrap_amended_witness :
    (20 : Nat) ≤ 80 - 2 ∧
    (wrapText 80 2 ['h', 'i', ' ', 'y', 'o', 'u']).filter (fun c => !isWsChar c) =
      (['h', 'i', ' ', 'y', 'o', 'u'] : List Char).filter (fun c => !isWsChar c) ∧
    (['h', 'i', ' ', 'y', 'o', 'u'] : List Char).length ≤ 80 :=
  ⟨by decide,
   (c6_wrap_amended 80 2 ['h', 'i', ' ', 'y', 'o', 'u']).1,
   (c6_wrap_amended 80 2 ['h', 'i', ' ', 'y', 'o', 'u']).2.2 (by decide) (by decide)
     ['h', 'i', ' ', 'y', 'o', 'u'] (by decide)⟩

theorem lineDiffF_self : ∀ (ls : List (List Char)) (fuel : Nat), ls.length < fuel →
    lineDiffF fuel ls ls = ls.map DiffOp.keep := by
  intro ls
  induction ls with
  | nil =>
    intro fuel h
    rcases fuel with _ | fuel
    · omega
    · rfl
  | cons x xs ih =>
    intro fuel h
    rcases fuel with _ | fuel
    · omega
    · simp only [lineDiffF, if_true]
      rw [ih fuel (by simp at h; omega)]
      rfl

theorem lineDiffF_nil_left : ∀ (ys : List (List Char)) (fuel : Nat), ys.length < fuel →
    lineDiffF fuel [] ys = ys.map DiffOp.ins := by
  intro ys
  induction ys with
  | nil =>
    intro fuel h
    rcases fuel with _ | fuel
    · omega
    · rfl
  | cons y ys ih =>
    intro fuel h
    rcases fuel with _ | fuel
    · omega
    · simp only [lineDiffF]
      rw [ih fuel (by simp at h; omega)]
      rfl

theorem lineDiffF_nil_right : ∀ (xs : List (List Char)) (fuel : Nat), xs.length < fuel →
    lineDiffF fuel xs [] = xs.map DiffOp.del := by
  intro xs
  induction xs with
  | nil =>
    intro fuel h
    rcases fuel with _ | fuel
    · omega
    · rfl
  | cons x xs ih =>
    intro fuel h
    rcases fuel with _ | fuel
    · omega
    · simp only [lineDiffF]
      rw [ih fuel (by simp at h; omega)]
      rfl

theorem lineDiffOps_self (ls : List (List Char)) :
    lineDiffOps ls ls = ls.map DiffOp.keep :=
  lineDiffF_self ls (ls.length + ls.length + 1) (by omega)

theorem lineDiffOps_nil_left (ys : List (List Char)) :
    lineDiffOps [] ys = ys.map DiffOp.ins := by
  unfold lineDiffOps
  exact lineDiffF_nil_left ys _ (by simp)

theorem lineDiffOps_nil_right (xs : List (List Char)) :
    lineDiffOps xs [] = xs.map DiffOp.del := by
  unfold lineDiffOps
  exact lineDiffF_nil_right xs _ (by simp)

theorem groupOps_cons (op : DiffOp) (rest : List DiffOp) :
    groupOps (op :: rest) =
      match groupOps rest with
      | [] => [opChange op]
      | ch :: chs =>
        if (opChange op).kind = ch.kind then
          ⟨ch.kind, (opChange op).value ++ ch.value⟩ :: chs
        else opChange op :: ch :: chs := by
  simp only [groupOps]

theorem groupOps_map_mk (mk : List Char → DiffOp) (k : ChKind)
    (hmk : ∀ l, opChange (mk l) = ⟨k, l⟩) :
    ∀ ls : List (List Char),
    groupOps (ls.map mk) = if ls.isEmpty then [] else [⟨k, ls.flatten⟩] := by
  intro ls
  induction ls with
  | nil => rfl
  | cons l ls ih =>
    rcases ls with _ | ⟨l2, ls2⟩
    · simp only [List.map_cons, List.map_nil, groupOps, hmk]
      simp
    · simp only [List.isEmpty_cons, if_false, Bool.false_eq_true] at ih ⊢
      rw [List.map_cons, groupOps_cons, ih, hmk l]
      simp

theorem diffLinesModel_self (X : List Char) :
    diffLinesModel X X =
      if (lineTokens X).isEmpty then [] else [⟨ChKind.common, (lineTokens X).flatten⟩] := by
  unfold diffLinesModel
  rw [lineDiffOps_self, groupOps_map_mk DiffOp.keep ChKind.common (fun l => rfl)]

theorem diffLinesModel_nil_left (X : List Char) :
    diffLinesModel [] X =
      if (lineTokens X).isEmpty then [] else [⟨ChKind.added, (lineTokens X).flatten⟩] := by
  unfold diffLinesModel
  rw [show lineTokens [] = [] from rfl, lineDiffOps_nil_left,
    groupOps_map_mk DiffOp.ins ChKind.added (fun l => rfl)]

theorem diffLinesModel_nil_right (X : List Char) :
    diffLinesModel X [] =
      if (lineTokens X).isEmpty then [] else [⟨ChKind.removed, (lineTokens X).flatten⟩] := by
  unfold diffLinesModel
  rw [show lineTokens [] = [] from rfl, lineDiffOps_nil_right,
    groupOps_map_mk DiffOp.del ChKind.removed (fun l => rfl)]

theorem numberRun_mem (k : LKind) :
    ∀ (ls : List (List Char)) (st : Nat) (d : DLine), d ∈ numberRun k st ls → d.kind = k := by
  intro ls
  induction ls with
  | nil => intro st d h; simp [numberRun] at h
  | cons l ls ih =>
    intro st d h
    rcases List.mem_cons.mp h with h0 | h0
    · rw [h0]
    · exact ih (st + 1) d h0

theorem outerLoop_out_of_range (cl : Nat) (all : List DLine) (pad : Nat → List Char)
    (i : Nat) (b : Bool) (fuel : Nat) (h : all.length ≤ i) :
    outerLoop cl all pad i b fuel = [] := by
  rcases fuel with _ | fuel
  · rfl
  · simp only [outerLoop, List.getElem?_eq_none h]

theorem outerLoop_no_change (cl : Nat) (all : List DLine) (pad : Nat → List Char)
    (h : ∀ d ∈ all, isChange d = false) :
    ∀ (fuel i : Nat) (b : Bool), outerLoop cl all pad i b fuel = [] := by
  intro fuel
  induction fuel with
  | zero => intro i b; rfl
  | succ fuel ih =>
    intro i b
    rcases hi : all[i]? with _ | d
    · simp only [outerLoop, hi]
    · simp only [outerLoop, hi]
      rw [if_neg (by simp [h d (List.getElem?_mem hi)])]
      exact ih (i + 1) b

theorem innerLoop_all_change (all : List DLine) (pad : Nat → List Char)
    (h : ∀ d ∈ all, isChange d = true) :
    ∀ (fuel i : Nat), i ≤ all.length → all.length - i ≤ fuel →
    innerLoop all pad i fuel = ((all.drop i).map (emitLine pad), all.length) := by
  intro fuel
  induction fuel with
  | zero =>
    intro i h1 h2
    have : i = all.length := by omega
    subst this
    simp [innerLoop, List.drop_length]
  | succ fuel ih =>
    intro i h1 h2
    by_cases hi : i < all.length
    · have hget : all[i]? = some all[i] := List.getElem?_eq_getElem hi
      have hcond : innerCond all i = true := by
        unfold innerCond
        rw [hget]
        simp [h all[i] (List.getElem_mem hi)]
      simp only [innerLoop]
      rw [if_pos hcond, hget]
      dsimp only
      rw [ih (i + 1) (by omega) (by omega)]
      rw [List.drop_eq_getElem_cons hi]
      simp only [List.map_cons]
    · have hlen : i = all.length := by omega
      subst hlen
      have hget : all[all.length]? = (none : Option DLine) := List.getElem?_eq_none le_rfl
      have hcond : innerCond all all.length = false := by
        unfold innerCond
        rw [hget]
      simp only [innerLoop]
      rw [if_neg (by simp [hcond])]
      simp [List.drop_length]

theorem outerLoop_all_change (cl : Nat) (all : List DLine) (pad : Nat → List Char)
    (h : ∀ d ∈ all, isChange d = true) :
    outerLoop cl all pad 0 true (all.length + 1) = all.map (emitLine pad) := by
  rcases hall : all with _ | ⟨d0, rest⟩
  · rfl
  · rw [← hall]
    have hlen : 0 < all.length := by rw [hall]; simp
    have hget : all[0]? = some all[0] := List.getElem?_eq_getElem hlen
    have hfuel : all.length + 1 = (all.length) + 1 := rfl
    simp only [outerLoop, hget]
    rw [if_pos (by simp [h all[0] (List.getElem_mem hlen)])]
    rw [innerLoop_all_change all pad h all.length 0 (by omega) (by omega)]
    dsimp only
    have hmin : min all.length (all.length + cl) = all.length := Nat.min_eq_left (by omega)
    rw [hmin]
    rw [outerLoop_out_of_range cl all pad all.length false all.length le_rfl]
    unfold ctxBetween
    simp [List.drop_zero]

theorem buildGo_nil (o n : Nat) : buildGo [] o n = [] := rfl

theorem renderDiff_self (X : List Char) (cl : Nat) :
    renderDiff (some X) (some X) cl = [] := by
  unfold renderDiff
  dsimp only
  simp only [Option.getD_some]
  apply outerLoop_no_change
  intro d hd
  rw [diffLinesModel_self X] at hd
  rcases he : (lineTokens X).isEmpty with _ | _
  · rw [he] at hd
    simp only [Bool.false_eq_true, if_false] at hd
    unfold buildAllLines buildGo at hd
    dsimp only at hd
    simp only [buildGo_nil, List.append_nil] at hd
    have hk := numberRun_mem LKind.ctx _ _ d hd
    unfold isChange
    rw [hk]
  · rw [he] at hd
    simp only [if_true] at hd
    simp [buildAllLines, buildGo] at hd

theorem renderDiff_nil_left_mem (X : List Char) (cl : Nat) :
    ∀ r ∈ renderDiff (some []) (some X) cl, ∃ p l, r = RLine.addL p l := by
  intro r hr
  unfold renderDiff at hr
  dsimp only at hr
  simp only [Option.getD_some] at hr
  have hkinds : ∀ d ∈ buildAllLines (diffLinesModel [] X), d.kind = LKind.add := by
    intro d hd
    rw [diffLinesModel_nil_left X] at hd
    rcases he : (lineTokens X).isEmpty with _ | _
    · rw [he] at hd
      simp only [Bool.false_eq_true, if_false] at hd
      unfold buildAllLines buildGo at hd
      dsimp only at hd
      simp only [buildGo_nil, List.append_nil] at hd
      exact numberRun_mem LKind.add _ _ d hd
    · rw [he] at hd
      simp only [if_true] at hd
      simp [buildAllLines, buildGo] at hd
  have hchange : ∀ d ∈ buildAllLines (diffLinesModel [] X), isChange d = true := by
    intro d hd
    unfold isChange
    rw [hkinds d hd]
  rw [outerLoop_all_change cl _ _ hchange] at hr
  rcases List.mem_map.mp hr with ⟨d, hd, hemit⟩
  have hk := hkinds d hd
  rw [← hemit]
  unfold emitLine
  rw [hk]
  exact ⟨_, _, rfl⟩

theorem renderDiff_nil_right_mem (X : List Char) (cl : Nat) :
    ∀ r ∈ renderDiff (some X) (some []) cl, ∃ p l, r = RLine.remL p l := by
  intro r hr
  unfold renderDiff at hr
  dsimp only at hr
  simp only [Option.getD_some] at hr
  have hkinds : ∀ d ∈ buildAllLines (diffLinesModel X []), d.kind = LKind.remove := by
    intro d hd
    rw [diffLinesModel_nil_right X] at hd
    rcases he : (lineTokens X).isEmpty with _ | _
    · rw [he] at hd
      simp only [Bool.false_eq_true, if_false] at hd
      unfold buildAllLines buildGo at hd
      dsimp only at hd
      simp only [buildGo_nil, List.append_nil] at hd
      exact numberRun_mem LKind.remove _ _ d hd
    · rw [he] at hd
      simp only [if_true] at hd
      simp [buildAllLines, buildGo] at hd
  have hchange : ∀ d ∈ buildAllLines (diffLinesModel X []), isChange d = true := by
    intro d hd
    unfold isChange
    rw [hkinds d hd]
  rw [outerLoop_all_change cl _ _ hchange] at hr
  rcases List.mem_map.mp hr with ⟨d, hd, hemit⟩
  have hk := hkinds d hd
  rw [← hemit]
  unfold emitLine
  rw [hk]
  exact ⟨_, _, rfl⟩

/-- C5: the diff renderer on two identical texts renders nothing; on
(empty, X) every rendered line is an added line; on (X, empty) every
rendered line is a removed line; and the Edit tool-call formatter prints
no diff block when old and new strings are identical. -/
theorem c5_diff_boundaries :
    (∀ (X : List Char) (cl : Nat), renderDiff (some X) (some X) cl = []) ∧
    (∀ (X : List Char) (cl : Nat), ∀ r ∈ renderDiff (some []) (some X) cl,
      ∃ p l, r = RLine.addL p l) ∧
    (∀ (X : List Char) (cl : Nat), ∀ r ∈ renderDiff (some X) (some []) cl,
      ∃ p l, r = RLine.remL p l) ∧
    (∀ X : List Char, editDiffBlock (some X) (some X) = none) := by
  refine ⟨renderDiff_self, renderDiff_nil_left_mem, renderDiff_nil_right_mem, ?_⟩
  intro X
  unfold editDiffBlock
  rw [renderDiff_self X 3]
  rfl

theorem c5_diff_boundaries_witness :
    renderDiff (some ['a']) (some ['a']) 3 = [] ∧
    RLine.addL ['1'] ['x'] ∈ renderDiff (some []) (some ['x']) 3 ∧
    (∃ p l, RLine.addL ['1'] ['x'] = RLine.addL p l) ∧
    RLine.remL ['1'] ['x'] ∈ renderDiff (some ['x']) (some []) 3 ∧
    (∃ p l, RLine.remL ['1'] ['x'] = RLine.remL p l) ∧
    editDiffBlock (some ['a']) (some ['a']) = none :=
  ⟨c5_diff_boundaries.1 ['a'] 3,
   by decide,
   c5_diff_boundaries.2.1 ['x'] 3 (RLine.addL ['1'] ['x']) (by decide),
   by decide,
   c5_diff_boundaries.2.2.1 ['x'] 3 (RLine.remL ['1'] ['x']) (by decide),
   c5_diff_boundaries.2.2.2 ['a']⟩

/-- C4: evaluation of the diff renderer at old text `"a\nb\nc\nd"` and new
text `"A\nb\nc\nD"` (two change regions separated by exactly three
unchanged lines, so their three-line context windows overlap).  Instead
of one merged block, the code prints the context lines `b` and `c`
twice, inserts an ellipsis marker although no line is elided between the
regions, and omits the removed line `d` from the output entirely. -/
theorem c4_render_bug_eval :
    renderDiff (some "a\nb\nc\nd".toList) (some "A\nb\nc\nD".toList) 3 =
      [RLine.remL ['1'] ['a'], RLine.addL ['1'] ['A'],
       RLine.ctxL ['2'] ['b'], RLine.ctxL ['3'] ['c'],
       RLine.ellipsis,
       RLine.ctxL ['2'] ['b'], RLine.ctxL ['3'] ['c'],
       RLine.addL ['4'] ['D']] ∧
    RLine.remL ['4'] ['d'] ∉
      renderDiff (some "a\nb\nc\nd".toList) (some "A\nb\nc\nD".toList) 3 ∧
    (renderDiff (some "a\nb\nc\nd".toList) (some "A\nb\nc\nD".toList) 3).count
      (RLine.ctxL ['2'] ['b']) = 2 := by
  decide

theorem numberRun_getElem (k : LKind) :
    ∀ (ls : List (List Char)) (st j : Nat),
    (numberRun k st ls)[j]? = (ls[j]?).map (fun l => (⟨k, l, st + j⟩ : DLine)) := by
  intro ls
  induction ls with
  | nil => intro st j; simp [numberRun]
  | cons l ls ih =>
    intro st j
    rcases j with _ | j
    · simp [numberRun]
    · simp only [numberRun, List.getElem?_cons_succ]
      rw [ih (st + 1) j, show st + 1 + j = st + (j + 1) by omega]

theorem numberRun_length (k : LKind) :
    ∀ (ls : List (List Char)) (st : Nat), (numberRun k st ls).length = ls.length := by
  intro ls
  induction ls with
  | nil => intro st; rfl
  | cons l ls ih =>
    intro st
    simp [numberRun, ih (st + 1)]

theorem sideOf_self (k : LKind) : sideOf k k = true := by
  cases k <;> rfl

theorem num_append_step (lk : LKind) (s : Nat) (ls : List (List Char)) (tailL : List DLine)
    (bo bn bo' bn' : Nat)
    (hs : s = if lk = LKind.remove then bo else bn)
    (ho' : bo' = bo + (if sideOf LKind.remove lk then ls.length else 0))
    (hn' : bn' = bn + (if sideOf LKind.add lk then ls.length else 0))
    (htail : ∀ (j : Nat) (d : DLine), tailL[j]? = some d →
      d.num = (if d.kind = LKind.remove then bo' else bn') +
        (tailL.take j).countP (fun e => sideOf d.kind e.kind)) :
    ∀ (j : Nat) (d : DLine), (numberRun lk s ls ++ tailL)[j]? = some d →
      d.num = (if d.kind = LKind.remove then bo else bn) +
        ((numberRun lk s ls ++ tailL).take j).countP (fun e => sideOf d.kind e.kind) := by
  intro j d hj
  have hrlen : (numberRun lk s ls).length = ls.length := numberRun_length lk ls s
  by_cases hcase : j < ls.length
  · have hleft : (numberRun lk s ls ++ tailL)[j]? = (numberRun lk s ls)[j]? :=
      List.getElem?_append_left (by omega)
    rw [hleft, numberRun_getElem] at hj
    rcases hl : ls[j]? with _ | l
    · rw [hl] at hj
      simp at hj
    · rw [hl] at hj
      have hd : (⟨lk, l, s + j⟩ : DLine) = d := by
        simpa using hj
      have htake : ((numberRun lk s ls ++ tailL).take j) = (numberRun lk s ls).take j := by
        rw [List.take_append_eq_append_take, show j - (numberRun lk s ls).length = 0 by omega]
        simp
      rw [htake, ← hd]
      dsimp only
      have hcount : ((numberRun lk s ls).take j).countP (fun e => sideOf lk e.kind) = j := by
        rw [List.countP_eq_length.mpr (by
          intro e he
          have hmem : e ∈ numberRun lk s ls := List.take_subset j _ he
          rw [numberRun_mem lk ls s e hmem]
          exact sideOf_self lk)]
        rw [List.length_take]
        omega
      rw [hcount, hs]
  · have hright : (numberRun lk s ls ++ tailL)[j]? = tailL[j - (numberRun lk s ls).length]? :=
      List.getElem?_append_right (by omega)
    rw [hright, hrlen] at hj
    have hd := htail (j - ls.length) d hj
    have htake : ((numberRun lk s ls ++ tailL).take j) =
        numberRun lk s ls ++ tailL.take (j - ls.length) := by
      rw [List.take_append_eq_append_take, List.take_of_length_le (by omega), hrlen]
    rw [htake, List.countP_append, hd]
    have hcount : (numberRun lk s ls).countP (fun e => sideOf d.kind e.kind) =
        if sideOf d.kind lk then ls.length else 0 := by
      rcases hsk : sideOf d.kind lk with _ | _
      · rw [if_neg (by simp)]
        rw [List.countP_eq_zero.mpr (by
          intro e he
          rw [numberRun_mem lk ls s e he]
          simp [hsk])]
      · rw [if_pos rfl]
        rw [List.countP_eq_length.mpr (by
          intro e he
          rw [numberRun_mem lk ls s e he]
          exact hsk)]
        exact hrlen
    rw [hcount]
    rcases hdk : d.kind with _ | _ | _
    · rw [if_neg (by simp), if_neg (by simp)]
      omega
    · rw [if_pos rfl, if_pos rfl]
      omega
    · rw [if_neg (by simp), if_neg (by simp)]
      have hce : sideOf LKind.ctx lk = sideOf LKind.add lk := rfl
      rw [hce]
      omega

theorem buildGo_num : ∀ (chs : List Change) (o n j : Nat) (d : DLine),
    (buildGo chs o n)[j]? = some d →
    d.num = (if d.kind = LKind.remove then o else n) +
      ((buildGo chs o n).take j).countP (fun e => sideOf d.kind e.kind) := by
  intro chs
  induction chs with
  | nil => intro o n j d h; simp [buildGo_nil] at h
  | cons ch rest ih =>
    intro o n j d h
    rcases hk : ch.kind with _ | _ | _
    · have heq : buildGo (ch :: rest) o n =
          numberRun LKind.add n (chLines ch.value) ++
            buildGo rest o (n + (chLines ch.value).length) := by
        simp only [buildGo, hk]
      rw [heq] at h ⊢
      exact num_append_step LKind.add n (chLines ch.value) _ o n o
        (n + (chLines ch.value).length) (by simp) (by simp [sideOf]) (by simp [sideOf])
        (fun j d hj => ih o (n + (chLines ch.value).length) j d hj) j d h
    · have heq : buildGo (ch :: rest) o n =
          numberRun LKind.remove o (chLines ch.value) ++
            buildGo rest (o + (chLines ch.value).length) n := by
        simp only [buildGo, hk]
      rw [heq] at h ⊢
      exact num_append_step LKind.remove o (chLines ch.value) _ o n
        (o + (chLines ch.value).length) n (by simp) (by simp [sideOf]) (by simp [sideOf])
        (fun j d hj => ih (o + (chLines ch.value).length) n j d hj) j d h
    · have heq : buildGo (ch :: rest) o n =
          numberRun LKind.ctx n (chLines ch.value) ++
            buildGo rest (o + (chLines ch.value).length) (n + (chLines ch.value).length) := by
        simp only [buildGo, hk]
      rw [heq] at h ⊢
      exact num_append_step LKind.ctx n (chLines ch.value) _ o n
        (o + (chLines ch.value).length) (n + (chLines ch.value).length) (by simp)
        (by simp [sideOf]) (by simp [sideOf])
        (fun j d hj => ih (o + (chLines ch.value).length) (n + (chLines ch.value).length) j d hj)
        j d h

theorem natDigitsAux_eq : ∀ (n fuel : Nat), n < fuel → natDigitsAux fuel n = natDigits n := by
  intro n
  induction n using Nat.strong_induction_on with
  | _ n ih =>
    intro fuel hf
    rcases fuel with _ | fuel
    · omega
    · by_cases h10 : n < 10
      · unfold natDigits
        simp only [natDigitsAux]
        rw [if_pos h10, if_pos h10]
      · unfold natDigits
        simp only [natDigitsAux]
        rw [if_neg h10, if_neg h10]
        have hdiv : n / 10 < n := Nat.div_lt_self (by omega) (by omega)
        rw [ih (n / 10) hdiv fuel (by omega), ih (n / 10) hdiv n (by omega)]

theorem natDigits_eq_def (n : Nat) :
    natDigits n =
      if n < 10 then [Nat.digitChar n]
      else natDigits (n / 10) ++ [Nat.digitChar (n % 10)] := by
  have hlhs : natDigits n = natDigitsAux (n + 1) n := rfl
  rw [hlhs]
  simp only [natDigitsAux]
  by_cases h10 : n < 10
  · rw [if_pos h10, if_pos h10]
  · rw [if_neg h10, if_neg h10]
    have hdiv : n / 10 < n := Nat.div_lt_self (by omega) (by omega)
    rw [natDigitsAux_eq (n / 10) n hdiv]

theorem natDigits_len_pos (n : Nat) : 1 ≤ (natDigits n).length := by
  rw [natDigits_eq_def]
  split <;> simp

theorem natDigits_len_mono : ∀ (m n : Nat), n ≤ m →
    (natDigits n).length ≤ (natDigits m).length := by
  intro m
  induction m using Nat.strong_induction_on with
  | _ m ih =>
    intro n h
    by_cases hm : m < 10
    · have hn : n < 10 := by omega
      rw [natDigits_eq_def n, natDigits_eq_def m, if_pos hn, if_pos hm]
      simp
    · by_cases hn : n < 10
      · have h1 : (natDigits n).length = 1 := by
          rw [natDigits_eq_def n, if_pos hn]
          rfl
        rw [h1]
        exact natDigits_len_pos m
      · rw [natDigits_eq_def n, natDigits_eq_def m, if_neg hn, if_neg hm]
        simp only [List.length_append, List.length_cons, List.length_nil]
        have hdm : m / 10 < m := Nat.div_lt_self (by omega) (by omega)
        have := ih (m / 10) hdm (n / 10) (Nat.div_le_div_right h)
        omega

theorem maxNum_le_of_mem : ∀ (all : List DLine) (d : DLine), d ∈ all → d.num ≤ maxNum all := by
  intro all
  induction all with
  | nil => intro d h; simp at h
  | cons d0 rest ih =>
    intro d h
    unfold maxNum
    rw [List.foldr_cons]
    rcases List.mem_cons.mp h with h0 | h0
    · rw [h0]
      exact le_max_left _ _
    · refine le_trans ?_ (le_max_right _ _)
      have := ih d h0
      unfold maxNum at this
      exact this

theorem padStart_length (w : Nat) (s : List Char) :
    (padStart w s).length = max w s.length := by
  unfold padStart
  rw [List.length_append, List.length_replicate]
  omega

theorem ctxBetween_mem (all : List DLine) (pad : Nat → List Char) (lo hi : Nat) (r : RLine)
    (h : r ∈ ctxBetween all pad lo hi) :
    ∃ d ∈ all, d.kind = LKind.ctx ∧ r = RLine.ctxL (pad d.num) d.line := by
  unfold ctxBetween at h
  rcases List.mem_filterMap.mp h with ⟨j, hj, hsome⟩
  rcases hg : all[j]? with _ | d
  · rw [hg] at hsome
    simp at hsome
  · rw [hg] at hsome
    try dsimp only at hsome
    rcases hk : d.kind with _ | _ | _
    · rw [hk] at hsome
      simp at hsome
    · rw [hk] at hsome
      simp at hsome
    · rw [hk] at hsome
      have hr : RLine.ctxL (pad d.num) d.line = r := by
        simpa using hsome
      exact ⟨d, List.getElem?_mem hg, hk, hr.symm⟩

theorem innerLoop_mem (all : List DLine) (pad : Nat → List Char) :
    ∀ (fuel i : Nat) (r : RLine), r ∈ (innerLoop all pad i fuel).1 →
    ∃ d ∈ all, r = emitLine pad d := by
  intro fuel
  induction fuel with
  | zero => intro i r h; simp [innerLoop] at h
  | succ fuel ih =>
    intro i r h
    simp only [innerLoop] at h
    split at h
    · rcases hg : all[i]? with _ | d
      · rw [hg] at h
        simp at h
      · rw [hg] at h
        try dsimp only at h
        rcases List.mem_cons.mp h with h0 | h0
        · exact ⟨d, List.getElem?_mem hg, h0⟩
        · exact ih (i + 1) r h0
    · simp at h

theorem outerLoop_mem (cl : Nat) (all : List DLine) (pad : Nat → List Char) :
    ∀ (fuel i : Nat) (b : Bool) (r : RLine), r ∈ outerLoop cl all pad i b fuel →
    r = RLine.ellipsis ∨ ∃ d ∈ all, r = emitLine pad d := by
  intro fuel
  induction fuel with
  | zero => intro i b r h; simp [outerLoop] at h
  | succ fuel ih =>
    intro i b r h
    simp only [outerLoop] at h
    rcases hg : all[i]? with _ | d
    · rw [hg] at h
      simp at h
    · rw [hg] at h
      try dsimp only at h
      split at h
      · simp only [List.mem_append] at h
        rcases h with ((((h | h) | h) | h) | h) | h
        · split at h
          · exact Or.inl (by simpa using h)
          · simp at h
        · rcases ctxBetween_mem all pad _ _ r h with ⟨d2, hd2, hk2, hr⟩
          refine Or.inr ⟨d2, hd2, ?_⟩
          rw [hr]
          unfold emitLine
          rw [hk2]
        · rcases innerLoop_mem all pad _ _ r h with ⟨d2, hd2, hr⟩
          exact Or.inr ⟨d2, hd2, hr⟩
        · rcases ctxBetween_mem all pad _ _ r h with ⟨d2, hd2, hk2, hr⟩
          refine Or.inr ⟨d2, hd2, ?_⟩
          rw [hr]
          unfold emitLine
          rw [hk2]
        · split at h
          · exact Or.inl (by simpa using h)
          · simp at h
        · exact ih _ _ r h
      · exact ih _ _ r h

theorem numStrOf_emitLine (pad : Nat → List Char) (d : DLine) :
    numStrOf (emitLine pad d) = some (pad d.num) := by
  unfold emitLine numStrOf
  rcases d.kind <;> rfl

theorem renderDiff_pad_mem (oldS newS : Option (List Char)) (cl : Nat) :
    ∀ r ∈ renderDiff oldS newS cl, ∀ p, numStrOf r = some p →
    p.length = (natDigits (maxNum (buildAllLines
      (diffLinesModel (oldS.getD []) (newS.getD []))))).length := by
  intro r hr p hnum
  unfold renderDiff at hr
  dsimp only at hr
  rcases outerLoop_mem cl _ _ _ 0 true r hr with he | ⟨d, hd, hrd⟩
  · rw [he] at hnum
    simp [numStrOf] at hnum
  · rw [hrd, numStrOf_emitLine] at hnum
    have hp : p = padStart (natDigits (maxNum (buildAllLines
        (diffLinesModel (oldS.getD []) (newS.getD []))))).length (natDigits d.num) :=
      (Option.some.inj hnum).symm
    rw [hp, padStart_length]
    have hmono := natDigits_len_mono _ _ (maxNum_le_of_mem _ d hd)
    omega

/-- C9: in the built line list, a removed line's number is its 1-based
position in the old line sequence (one more than the count of preceding
removed/context lines), and an added or context line's number is its
1-based position in the new line sequence (one more than the count of
preceding added/context lines); and every printed line's number string
is padded to the width of the decimal representation of the largest line
number in the whole diff. -/
theorem c9_numbering :
    (∀ (chs : List Change) (j : Nat) (d : DLine), (buildAllLines chs)[j]? = some d →
      d.num = 1 + ((buildAllLines chs).take j).countP (fun e => sideOf d.kind e.kind)) ∧
    (∀ (oldS newS : Option (List Char)) (cl : Nat), ∀ r ∈ renderDiff oldS newS cl,
      ∀ p, numStrOf r = some p →
      p.length = (natDigits (maxNum (buildAllLines
        (diffLinesModel (oldS.getD []) (newS.getD []))))).length) := by
  constructor
  · intro chs j d h
    unfold buildAllLines at h ⊢
    have hb := buildGo_num chs 1 1 j d h
    simpa using hb
  · intro oldS newS cl r hr p hnum
    exact renderDiff_pad_mem oldS newS cl r hr p hnum

theorem c9_numbering_witness :
    (buildAllLines [⟨ChKind.removed, ['a', '\n']⟩])[0]? =
      some (⟨LKind.remove, ['a'], 1⟩ : DLine) ∧
    (⟨LKind.remove, ['a'], 1⟩ : DLine).num =
      1 + ((buildAllLines [⟨ChKind.removed, ['a', '\n']⟩]).take 0).countP
        (fun e => sideOf (⟨LKind.remove, ['a'], 1⟩ : DLine).kind e.kind) ∧
    RLine.remL ['1'] ['a'] ∈ renderDiff (some ['a']) (some ['b']) 3 ∧
    (['1'] : List Char).length =
      (natDigits (maxNum (buildAllLines (diffLinesModel
        ((some ['a']).getD []) ((some ['b']).getD []))))).length :=
  ⟨by decide,
   c9_numbering.1 [⟨ChKind.removed, ['a', '\n']⟩] 0 ⟨LKind.remove, ['a'], 1⟩ (by decide),
   by decide,
   c9_numbering.2 (some ['a']) (some ['b']) 3 (RLine.remL ['1'] ['a']) (by decide) ['1']
     (by decide)⟩
